import Mathlib

/-!
Shallow embedding of the sequential async pipeline executor ("middleware
chain") repeated in the airport-security, web-server and data-pipeline demos
of the repository (AirportSecurity.processPassenger, WebServer.handleRequest,
DataPipeline.process).

A step (checkpoint / middleware / processor) is an async JS function
`(context, next) => ...` whose observable behaviour is: mutate the shared
context, branch on the context, invoke the continuation `next()` (awaiting
the rest of the chain), throw an error, or return.  `StepAct` captures
exactly these behaviours as a syntax tree; console logging is not modelled.

The executor keeps a mutable cursor over the registered step list and a
continuation `next` that, when the cursor is in range, fetches the step at
the cursor, increments the cursor and awaits the step with `(context, next)`;
otherwise it runs the terminal branch (a log in AirportSecurity, nothing in
the other two) and returns, unwinding the await chain.  This is modelled as
a small-step machine on a stack of suspended step bodies (the await chain):
`step1` performs one synchronous action, `exec` runs the machine to
completion (termination is proved via a weight measure).
-/

variable {Ctx : Type}

/-- Observable behaviour of one async middleware step `(context, next)`. -/
inductive StepAct (Ctx : Type) where
  | done : StepAct Ctx
  | mutate (f : Ctx → Ctx) (k : StepAct Ctx) : StepAct Ctx
  | next (k : StepAct Ctx) : StepAct Ctx
  | throwErr (msg : String) (k : StepAct Ctx) : StepAct Ctx
  | branch (c : Ctx → Bool) (t e : StepAct Ctx) : StepAct Ctx

/-- State of one run (`PipelineRun`): the await-chain of suspended step
bodies, the cursor into the step list, the list of step indices invoked so
far (in invocation order), how many times the end-of-list terminal branch
ran, and the pending error, if any. -/
structure PipelineRun (Ctx : Type) where
  stack : List (StepAct Ctx)
  cursor : Nat
  trace : List Nat
  terms : Nat
  err : Option String

/-- One synchronous action of the machine; `none` when the run has finished
(the await chain is empty).  A thrown error aborts the whole chain (no
executor catches anywhere), which clears the stack and records the message. -/
def step1 (steps : List (StepAct Ctx)) (c : PipelineRun Ctx) (x : Ctx) :
    Option (PipelineRun Ctx × Ctx) :=
  match c.stack with
  | [] => none
  | frame :: rest =>
    match frame with
    | .done => some ({ c with stack := rest }, x)
    | .mutate f k => some ({ c with stack := k :: rest }, f x)
    | .next k =>
        if h : c.cursor < steps.length then
          some ({ c with stack := steps.get ⟨c.cursor, h⟩ :: k :: rest,
                         cursor := c.cursor + 1,
                         trace := c.trace ++ [c.cursor] }, x)
        else
          some ({ c with stack := k :: rest, terms := c.terms + 1 }, x)
    | .throwErr msg _ => some ({ c with stack := [], err := some msg }, x)
    | .branch p t e => some ({ c with stack := (if p x then t else e) :: rest }, x)

/-- Size of a step body, used in the termination measure. -/
def size : StepAct Ctx → Nat
  | .done => 1
  | .mutate _ k => 1 + size k
  | .next k => 1 + size k
  | .throwErr _ _ => 1
  | .branch _ t e => 1 + size t + size e

/-- Total weight of a stack of suspended bodies. -/
def stackWeight (st : List (StepAct Ctx)) : Nat := (st.map size).sum

/-- Total weight of the not-yet-dispatched steps. -/
def restWeight (steps : List (StepAct Ctx)) (cursor : Nat) : Nat :=
  ((steps.drop cursor).map size).sum

/-- Termination measure of the machine. -/
def measureC (steps : List (StepAct Ctx)) (c : PipelineRun Ctx) : Nat :=
  stackWeight c.stack + restWeight steps c.cursor

/-- Run the machine to completion. -/
def exec (steps : List (StepAct Ctx)) (c : PipelineRun Ctx) (x : Ctx) :
    PipelineRun Ctx × Ctx :=
  match h : step1 steps c x with
  | none => (c, x)
  | some p => exec steps p.1 p.2
  termination_by measureC steps c
  decreasing_by
    obtain ⟨st, cur, tr, tm, er⟩ := c
    cases st with
    | nil => simp [step1] at h
    | cons frame rest =>
      cases frame with
      | done =>
          simp [step1] at h
          subst h
          simp [measureC, stackWeight, size] <;> omega
      | mutate f k =>
          simp [step1] at h
          subst h
          simp [measureC, stackWeight, size] <;> omega
      | next k =>
          simp only [step1] at h
          by_cases hc : cur < steps.length
          · rw [dif_pos hc] at h
            injection h with h
            subst h
            have hre : restWeight steps cur
                = size (steps.get ⟨cur, hc⟩) + restWeight steps (cur + 1) := by
              unfold restWeight
              rw [List.drop_eq_getElem_cons hc, List.map_cons, List.sum_cons]
              rfl
            simp [measureC, stackWeight, size, hre] <;> omega
          · rw [dif_neg hc] at h
            injection h with h
            subst h
            simp [measureC, stackWeight, size] <;> omega
      | throwErr msg k =>
          simp [step1] at h
          subst h
          simp [measureC, stackWeight, size] <;> omega
      | branch p t e =>
          simp [step1] at h
          subst h
          by_cases hp : p x <;>
            simp [measureC, stackWeight, size, hp] <;> omega

/-- Initial run state: the bottom frame is the executor's own
`await next()` call, cursor 0, nothing invoked yet, no error. -/
def initRun : PipelineRun Ctx :=
  { stack := [StepAct.next StepAct.done], cursor := 0, trace := [], terms := 0,
    err := none }

/-- Result of one `run` invocation, as observable by the caller: the final
state of the (shared, mutated-in-place) context, the indices of the steps
that were invoked in invocation order, how many times the terminal branch
ran, the rejection message if the returned promise rejected (`none` means it
resolved), and the resolved value (`none` models `undefined`). -/
structure RunResult (Ctx : Type) where
  ctx : Ctx
  trace : List Nat
  terms : Nat
  err : Option String
  retval : Option Ctx

/-- Source: `class AirportSecurity { constructor() { this.checkpoints = [] } ... }` -/
structure AirportSecurity (Ctx : Type) where
  checkpoints : List (StepAct Ctx)

/-- Source: `addCheckpoint(checkpoint) { this.checkpoints.push(checkpoint); }` -/
def AirportSecurity.addCheckpoint (a : AirportSecurity Ctx)
    (checkpoint : StepAct Ctx) : AirportSecurity Ctx :=
  { a with checkpoints := a.checkpoints ++ [checkpoint] }

/-- Source: `async processPassenger(passenger)` drives the chain starting from the
initial `await proceedToNext()` and resolves with no value (`undefined`);
the method reads `this.checkpoints` but never writes any field of `this`,
so the post-state of the object is returned unchanged alongside the result. -/
def AirportSecurity.processPassenger (a : AirportSecurity Ctx)
    (passenger : Ctx) : AirportSecurity Ctx × RunResult Ctx :=
  let r := exec a.checkpoints initRun passenger
  (a, { ctx := r.2, trace := r.1.trace, terms := r.1.terms, err := r.1.err,
        retval := none })

/-- Source: `class WebServer { constructor() { this.middleware = [] } ... }` -/
structure WebServer (Ctx : Type) where
  middleware : List (StepAct Ctx)

/-- Source: `use(middlewareFunction) { this.middleware.push(middlewareFunction); }` -/
def WebServer.use (w : WebServer Ctx) (middlewareFunction : StepAct Ctx) :
    WebServer Ctx :=
  { w with middleware := w.middleware ++ [middlewareFunction] }

/-- Source: `async handleRequest(request)` drives the chain and then
`return request` — the resolved value is the context itself (in its final
mutated state); on a step throw the promise rejects and carries no value. -/
def WebServer.handleRequest (w : WebServer Ctx) (request : Ctx) :
    WebServer Ctx × RunResult Ctx :=
  let r := exec w.middleware initRun request
  (w, { ctx := r.2, trace := r.1.trace, terms := r.1.terms, err := r.1.err,
        retval := match r.1.err with | none => some r.2 | some _ => none })

/-- Source: `class DataPipeline { constructor() { this.processors = [] } ... }` -/
structure DataPipeline (Ctx : Type) where
  processors : List (StepAct Ctx)

/-- Source: `addProcessor(processor) { this.processors.push(processor); }` -/
def DataPipeline.addProcessor (d : DataPipeline Ctx)
    (processor : StepAct Ctx) : DataPipeline Ctx :=
  { d with processors := d.processors ++ [processor] }

/-- Source: `async process(data)` is an identical driver to `handleRequest`, ending in
`return data`. -/
def DataPipeline.process (d : DataPipeline Ctx) (data : Ctx) :
    DataPipeline Ctx × RunResult Ctx :=
  let r := exec d.processors initRun data
  (d, { ctx := r.2, trace := r.1.trace, terms := r.1.terms, err := r.1.err,
        retval := match r.1.err with | none => some r.2 | some _ => none })

/-- A step body that performs the mutations `fns` in order and then
continues with `k`. -/
def seqMut (fns : List (Ctx → Ctx)) (k : StepAct Ctx) : StepAct Ctx :=
  fns.foldr StepAct.mutate k

/-- Apply a list of mutations in order. -/
def applyFns (fns : List (Ctx → Ctx)) (x : Ctx) : Ctx :=
  fns.foldl (fun a f => f a) x

/-- The mutations a step body performs along its spine (for bodies without
`branch`, this is exactly the sequence of context writes). -/
def bodyFns : StepAct Ctx → List (Ctx → Ctx)
  | .mutate f k => f :: bodyFns k
  | .next k => bodyFns k
  | _ => []

/-- Net effect on the context of running a list of (branch-free,
throw-free) step bodies in order. -/
def chainEffect (bodies : List (StepAct Ctx)) (x : Ctx) : Ctx :=
  bodies.foldl (fun a b => applyFns (bodyFns b) a) x

/-- A step that unconditionally performs some mutations and then invokes
its continuation exactly once (as its final action) — the shape of
`idVerification`, `loggingMiddleware`, `enrichData`, … in the source,
and the spec's "step that immediately advances". -/
def Advancing (b : StepAct Ctx) : Prop :=
  ∃ fns : List (Ctx → Ctx), b = seqMut fns (.next .done)

/-- A step that performs some mutations and returns without ever invoking
its continuation and without throwing (the "deny" branch of `ticketCheck`). -/
def Halting (b : StepAct Ctx) : Prop :=
  ∃ fns : List (Ctx → Ctx), b = seqMut fns .done

/-- The caller-owned context objects live in a heap of reference cells;
each `run` invocation holds the reference to its own context. -/
def Heap (Ctx : Type) := Nat → Ctx

/-- Write one heap cell. -/
def hupd (h : Heap Ctx) (r : Nat) (v : Ctx) : Heap Ctx :=
  fun n => if n = r then v else h n

/-- One machine action of the run holding reference `r`, acting on the
heap: it reads and writes only the cell `r`. -/
def stepH (steps : List (StepAct Ctx)) (r : Nat) (c : PipelineRun Ctx)
    (h : Heap Ctx) : Option (PipelineRun Ctx × Heap Ctx) :=
  match step1 steps c (h r) with
  | none => none
  | some p => some (p.1, hupd h r p.2)

/-- Two in-flight runs of one executor (one shared step list), each with
its own cursor/stack state and its own context reference, over one heap. -/
structure TwoRuns (Ctx : Type) where
  runA : PipelineRun Ctx
  runB : PipelineRun Ctx
  heap : Heap Ctx

/-- Cooperative interleaving: `true` gives the next synchronous action to
run A, `false` to run B; a finished run's turn is a no-op. -/
def istep (steps : List (StepAct Ctx)) (rA rB : Nat) (b : Bool)
    (s : TwoRuns Ctx) : TwoRuns Ctx :=
  if b then
    match stepH steps rA s.runA s.heap with
    | none => s
    | some p => { s with runA := p.1, heap := p.2 }
  else
    match stepH steps rB s.runB s.heap with
    | none => s
    | some p => { s with runB := p.1, heap := p.2 }

/-- Run the two-run machine under a schedule. -/
def irun (steps : List (StepAct Ctx)) (rA rB : Nat) :
    List Bool → TwoRuns Ctx → TwoRuns Ctx
  | [], s => s
  | b :: sched, s => irun steps rA rB sched (istep steps rA rB b s)

/-- One action of a run considered alone (no-op once finished). -/
def solo1 (steps : List (StepAct Ctx)) (p : PipelineRun Ctx × Ctx) :
    PipelineRun Ctx × Ctx :=
  match step1 steps p.1 p.2 with
  | none => p
  | some q => q

/-- Iterate `n` actions of a run considered alone. -/
def solo (steps : List (StepAct Ctx)) : Nat → PipelineRun Ctx × Ctx → PipelineRun Ctx × Ctx
  | 0, p => p
  | n + 1, p => solo steps n (solo1 steps p)

/-- Number of turns a schedule gives to run A. -/
def turnsA : List Bool → Nat
  | [] => 0
  | b :: sched => turnsA sched + (if b then 1 else 0)

/-- Number of turns a schedule gives to run B. -/
def turnsB : List Bool → Nat
  | [] => 0
  | b :: sched => turnsB sched + (if b then 0 else 1)

/-- Passenger record of the airport demo (the fields read or written by
the checkpoints embedded below). -/
structure Passenger where
  hasTicket : Bool
  ticketVerified : Bool
  idVerified : Bool

/-- Checkpoint `ticketCheck`: if the passenger has a ticket, set `ticketVerified` and
`await next()`; otherwise return without calling `next()`, stopping the
chain (access denied). -/
def ticketCheck : StepAct Passenger :=
  .branch (fun p => p.hasTicket)
    (.mutate (fun p => { p with ticketVerified := true }) (.next .done))
    .done

/-- Checkpoint `idVerification`: (after a simulated delay) set `idVerified` and
`await next()`. -/
def idVerification : StepAct Passenger :=
  .mutate (fun p => { p with idVerified := true }) (.next .done)

theorem size_pos (b : StepAct Ctx) : 0 < size b := by
  cases b <;> simp [size]

theorem restWeight_eq (steps : List (StepAct Ctx)) (cursor : Nat)
    (h : cursor < steps.length) :
    restWeight steps cursor
      = size (steps.get ⟨cursor, h⟩) + restWeight steps (cursor + 1) := by
  unfold restWeight
  rw [List.drop_eq_getElem_cons h, List.map_cons, List.sum_cons]
  rfl

theorem step1_lt (steps : List (StepAct Ctx)) (c : PipelineRun Ctx) (x : Ctx)
    (p : PipelineRun Ctx × Ctx) (h : step1 steps c x = some p) :
    measureC steps p.1 < measureC steps c := by
  obtain ⟨st, cur, tr, tm, er⟩ := c
  cases st with
  | nil => simp [step1] at h
  | cons frame rest =>
    cases frame with
    | done =>
        simp [step1] at h
        subst h
        simp [measureC, stackWeight, size] <;> omega
    | mutate f k =>
        simp [step1] at h
        subst h
        simp [measureC, stackWeight, size] <;> omega
    | next k =>
        simp only [step1] at h
        by_cases hc : cur < steps.length
        · rw [dif_pos hc] at h
          injection h with h
          subst h
          simp [measureC, stackWeight, size, restWeight_eq steps cur hc] <;> omega
        · rw [dif_neg hc] at h
          injection h with h
          subst h
          simp [measureC, stackWeight, size] <;> omega
    | throwErr msg k =>
        simp [step1] at h
        subst h
        simp [measureC, stackWeight, size] <;> omega
    | branch p t e =>
        simp [step1] at h
        subst h
        by_cases hp : p x <;>
          simp [measureC, stackWeight, size, hp] <;> omega

theorem exec_none (steps : List (StepAct Ctx)) (c : PipelineRun Ctx) (x : Ctx)
    (h : step1 steps c x = none) : exec steps c x = (c, x) := by
  rw [exec, h]

theorem exec_some (steps : List (StepAct Ctx)) (c : PipelineRun Ctx) (x : Ctx)
    (p : PipelineRun Ctx × Ctx) (h : step1 steps c x = some p) :
    exec steps c x = exec steps p.1 p.2 := by
  rw [exec, h]

theorem bodyFns_seqMut (fns : List (Ctx → Ctx)) (k : StepAct Ctx) :
    bodyFns (seqMut fns k) = fns ++ bodyFns k := by
  induction fns with
  | nil => rfl
  | cons f fs ih => simp [seqMut, bodyFns] at ih ⊢; exact ih

theorem exec_seqMut (steps : List (StepAct Ctx)) (fns : List (Ctx → Ctx))
    (k : StepAct Ctx) (rest : List (StepAct Ctx)) (cur : Nat) (t : List Nat)
    (m : Nat) (e : Option String) (x : Ctx) :
    exec steps ⟨seqMut fns k :: rest, cur, t, m, e⟩ x
      = exec steps ⟨k :: rest, cur, t, m, e⟩ (applyFns fns x) := by
  induction fns generalizing x with
  | nil => rfl
  | cons f fs ih =>
      rw [exec_some steps ⟨seqMut (f :: fs) k :: rest, cur, t, m, e⟩ x
            (⟨seqMut fs k :: rest, cur, t, m, e⟩, f x) rfl]
      exact ih (f x)

/-- Driving the chain from cursor position `cur` over steps that all
unconditionally advance: every remaining step is dispatched once, in order,
the terminal branch runs once, and the context accumulates every remaining
step's mutations in order. -/
theorem drive (steps : List (StepAct Ctx)) (hadv : ∀ b ∈ steps, Advancing b) :
    ∀ n cur, steps.length - cur = n → cur ≤ steps.length →
    ∀ (k : StepAct Ctx) (rest : List (StepAct Ctx)) (t : List Nat) (m : Nat)
      (x : Ctx),
    exec steps ⟨.next k :: rest, cur, t, m, none⟩ x
      = exec steps ⟨k :: rest, steps.length,
                    t ++ List.range' cur (steps.length - cur), m + 1, none⟩
          (chainEffect (steps.drop cur) x) := by
  intro n
  induction n with
  | zero =>
      intro cur hn hle k rest t m x
      have hcur : cur = steps.length := by omega
      have h1 : step1 steps ⟨.next k :: rest, cur, t, m, none⟩ x
          = some (⟨k :: rest, cur, t, m + 1, none⟩, x) := by
        have hnl : ¬ cur < steps.length := by omega
        simp [step1, hnl]
      rw [exec_some _ _ _ _ h1, hcur]
      simp [Nat.sub_self, List.drop_length, chainEffect]
  | succ n ih =>
      intro cur hn hle k rest t m x
      have hc : cur < steps.length := by omega
      have h1 : step1 steps ⟨.next k :: rest, cur, t, m, none⟩ x
          = some (⟨steps.get ⟨cur, hc⟩ :: k :: rest, cur + 1,
                   t ++ [cur], m, none⟩, x) := by
        simp [step1, hc]
      rw [exec_some _ _ _ _ h1]
      obtain ⟨fns, hfns⟩ := hadv (steps.get ⟨cur, hc⟩) (steps.get_mem _ _)
      rw [hfns, exec_seqMut,
          ih (cur + 1) (by omega) (by omega) .done (k :: rest) (t ++ [cur]) m
            (applyFns fns x),
          exec_some steps
            ⟨.done :: k :: rest, steps.length,
             (t ++ [cur]) ++ List.range' (cur + 1) (steps.length - (cur + 1)),
             m + 1, none⟩
            (chainEffect (steps.drop (cur + 1)) (applyFns fns x))
            (⟨k :: rest, steps.length,
              (t ++ [cur]) ++ List.range' (cur + 1) (steps.length - (cur + 1)),
              m + 1, none⟩,
             chainEffect (steps.drop (cur + 1)) (applyFns fns x)) rfl]
      congr 1
      · have h2 : steps.length - cur = (steps.length - (cur + 1)) + 1 := by
          omega
        rw [h2, List.range'_succ]
        simp
      · rw [List.drop_eq_getElem_cons hc]
        show chainEffect (steps.drop (cur + 1)) (applyFns fns x)
          = chainEffect (steps.drop (cur + 1))
              (applyFns (bodyFns (steps.get ⟨cur, hc⟩)) x)
        rw [hfns, bodyFns_seqMut]
        simp [bodyFns]

/-- Driving the chain from cursor `cur` when steps `cur..m-1` advance and
step `m` returns without invoking its continuation: steps `cur..m` are
dispatched once each in order, the chain then unwinds (no terminal branch),
and steps after `m` contribute nothing. -/
theorem driveHalt (steps : List (StepAct Ctx)) (m : Nat) (hm : m < steps.length)
    (hadv : ∀ j (hj : j < steps.length), j < m → Advancing (steps.get ⟨j, hj⟩))
    (hhalt : Halting (steps.get ⟨m, hm⟩)) :
    ∀ n cur, m - cur = n → cur ≤ m →
    ∀ (k : StepAct Ctx) (rest : List (StepAct Ctx)) (t : List Nat) (tm : Nat)
      (x : Ctx),
    exec steps ⟨.next k :: rest, cur, t, tm, none⟩ x
      = exec steps ⟨k :: rest, m + 1, t ++ List.range' cur (m + 1 - cur), tm,
                    none⟩
          (chainEffect ((steps.drop cur).take (m + 1 - cur)) x) := by
  intro n
  induction n with
  | zero =>
      intro cur hn hle k rest t tm x
      have hcur : cur = m := by omega
      subst hcur
      have h1 : step1 steps ⟨.next k :: rest, cur, t, tm, none⟩ x
          = some (⟨steps.get ⟨cur, hm⟩ :: k :: rest, cur + 1, t ++ [cur], tm,
                   none⟩, x) := by
        simp [step1, hm]
      rw [exec_some _ _ _ _ h1]
      obtain ⟨fns, hfns⟩ := hhalt
      rw [hfns, exec_seqMut,
          exec_some steps ⟨.done :: k :: rest, cur + 1, t ++ [cur], tm, none⟩
            (applyFns fns x)
            (⟨k :: rest, cur + 1, t ++ [cur], tm, none⟩, applyFns fns x) rfl]
      have h2 : cur + 1 - cur = 1 := by omega
      rw [h2]
      have h4 : (steps.drop cur).take 1 = [steps.get ⟨cur, hm⟩] := by
        rw [List.drop_eq_getElem_cons hm]
        rfl
      congr 1
      rw [h4, hfns]
      simp [chainEffect, bodyFns_seqMut, bodyFns, applyFns]
  | succ n ih =>
      intro cur hn hle k rest t tm x
      have hc : cur < steps.length := by omega
      have h1 : step1 steps ⟨.next k :: rest, cur, t, tm, none⟩ x
          = some (⟨steps.get ⟨cur, hc⟩ :: k :: rest, cur + 1, t ++ [cur], tm,
                   none⟩, x) := by
        simp [step1, hc]
      rw [exec_some _ _ _ _ h1]
      obtain ⟨fns, hfns⟩ := hadv cur hc (by omega)
      rw [hfns, exec_seqMut,
          ih (cur + 1) (by omega) (by omega) .done (k :: rest) (t ++ [cur]) tm
            (applyFns fns x),
          exec_some steps
            ⟨.done :: k :: rest, m + 1,
             (t ++ [cur]) ++ List.range' (cur + 1) (m + 1 - (cur + 1)), tm,
             none⟩
            (chainEffect ((steps.drop (cur + 1)).take (m + 1 - (cur + 1)))
              (applyFns fns x))
            (⟨k :: rest, m + 1,
              (t ++ [cur]) ++ List.range' (cur + 1) (m + 1 - (cur + 1)), tm,
              none⟩,
             chainEffect ((steps.drop (cur + 1)).take (m + 1 - (cur + 1)))
               (applyFns fns x)) rfl]
      congr 1
      · have h2 : m + 1 - cur = (m + 1 - (cur + 1)) + 1 := by omega
        rw [h2, List.range'_succ]
        simp
      · have h3 : m + 1 - cur = (m + 1 - (cur + 1)) + 1 := by omega
        rw [h3, List.drop_eq_getElem_cons hc, List.take_succ_cons]
        show chainEffect ((steps.drop (cur + 1)).take (m + 1 - (cur + 1)))
              (applyFns fns x)
          = chainEffect
              (steps.get ⟨cur, hc⟩
                :: (steps.drop (cur + 1)).take (m + 1 - (cur + 1))) x
        rw [hfns]
        simp [chainEffect, bodyFns_seqMut, bodyFns]

theorem exec_pop (steps rest : List (StepAct Ctx)) (cur : Nat) (t : List Nat)
    (m : Nat) (e : Option String) (x : Ctx) :
    exec steps ⟨StepAct.done :: rest, cur, t, m, e⟩ x
      = exec steps ⟨rest, cur, t, m, e⟩ x :=
  exec_some steps ⟨StepAct.done :: rest, cur, t, m, e⟩ x
    (⟨rest, cur, t, m, e⟩, x) rfl

theorem exec_halt (steps : List (StepAct Ctx)) (cur : Nat) (t : List Nat)
    (m : Nat) (e : Option String) (x : Ctx) :
    exec steps ⟨[], cur, t, m, e⟩ x = (⟨[], cur, t, m, e⟩, x) :=
  exec_none _ _ _ rfl

/-- A full run over steps that all unconditionally advance: every step is
dispatched exactly once in registration order, the terminal branch runs
once, the run ends with no error, and the context accumulates all the
steps' mutations in order. -/
theorem exec_advancing (steps : List (StepAct Ctx))
    (hadv : ∀ b ∈ steps, Advancing b) (x : Ctx) :
    exec steps initRun x
      = (⟨[], steps.length, List.range steps.length, 1, none⟩,
         chainEffect steps x) := by
  show exec steps ⟨StepAct.next .done :: [], 0, [], 0, none⟩ x = _
  rw [drive steps hadv (steps.length - 0) 0 rfl (by omega) .done [] [] 0 x,
      exec_pop, exec_halt]
  simp [List.range_eq_range']

/-- A full run in which steps `0..m-1` advance and step `m` returns without
invoking its continuation: steps `0..m` are dispatched once each in order,
the run ends with no error, the terminal branch never runs, and steps after
`m` contribute nothing. -/
theorem exec_halting (steps : List (StepAct Ctx)) (m : Nat)
    (hm : m < steps.length)
    (hadv : ∀ j (hj : j < steps.length), j < m → Advancing (steps.get ⟨j, hj⟩))
    (hhalt : Halting (steps.get ⟨m, hm⟩)) (x : Ctx) :
    exec steps initRun x
      = (⟨[], m + 1, List.range (m + 1), 0, none⟩,
         chainEffect (steps.take (m + 1)) x) := by
  show exec steps ⟨StepAct.next .done :: [], 0, [], 0, none⟩ x = _
  rw [driveHalt steps m hm hadv hhalt (m - 0) 0 rfl (by omega) .done [] [] 0 x,
      exec_pop, exec_halt]
  simp [List.range_eq_range']

/-- Any property of the machine state preserved by every transition holds
at the end of the run if it holds at the start. -/
theorem exec_inv (steps : List (StepAct Ctx))
    (P : PipelineRun Ctx → Ctx → Prop)
    (hP : ∀ c x p, step1 steps c x = some p → P c x → P p.1 p.2) :
    ∀ c x, P c x → P (exec steps c x).1 (exec steps c x).2 := by
  intro c x
  generalize hN : measureC steps c = N
  induction N using Nat.strong_induction_on generalizing c x with
  | _ N ih =>
    intro hp
    cases h : step1 steps c x with
    | none => rw [exec_none _ _ _ h]; exact hp
    | some p =>
        rw [exec_some _ _ _ _ h]
        subst hN
        exact ih (measureC steps p.1) (step1_lt steps c x p h) p.1 p.2 rfl
          (hP c x p h hp)

theorem hupd_ne (h : Heap Ctx) (r v n) (hne : n ≠ r) : hupd h r v n = h n :=
  if_neg hne

theorem solo_halted (steps : List (StepAct Ctx)) (n : Nat)
    (p : PipelineRun Ctx × Ctx) (hn : step1 steps p.1 p.2 = none) :
    solo steps n p = p := by
  induction n with
  | zero => rfl
  | succ n ih => show solo steps n (solo1 steps p) = p; rw [solo1, hn]; exact ih

theorem solo_add_one (steps : List (StepAct Ctx)) (n : Nat)
    (p : PipelineRun Ctx × Ctx) :
    solo steps (n + 1) p = solo steps n (solo1 steps p) := rfl

/-- How far a solo run can be driven: with at least `measureC` many
actions, the solo run reaches exactly the state `exec` computes. -/
theorem solo_reaches (steps : List (StepAct Ctx)) :
    ∀ (n : Nat) (c : PipelineRun Ctx) (x : Ctx), measureC steps c ≤ n →
    solo steps n (c, x) = exec steps c x := by
  intro n
  induction n with
  | zero =>
      intro c x hm
      cases hst : c.stack with
      | cons frame rest =>
          exfalso
          have h1 : 0 < stackWeight c.stack := by
            rw [hst]
            have := size_pos frame
            simp [stackWeight]
            omega
          have h2 : stackWeight c.stack ≤ measureC steps c := by
            simp [measureC]
          omega
      | nil =>
          have hn : step1 steps c x = none := by
            unfold step1
            rw [hst]
          rw [exec_none _ _ _ hn]
          rfl
  | succ n ih =>
      intro c x hm
      cases h : step1 steps c x with
      | none =>
          rw [exec_none _ _ _ h]
          exact solo_halted steps (n + 1) (c, x) h
      | some p =>
          rw [solo_add_one, exec_some _ _ _ _ h]
          have h1 : solo1 steps (c, x) = p := by rw [solo1, h]
          rw [h1]
          have h2 : measureC steps p.1 ≤ n := by
            have := step1_lt steps c x p h
            omega
          exact ih p.1 p.2 h2

theorem istep_false_projB (steps : List (StepAct Ctx)) (rA rB : Nat)
    (s : TwoRuns Ctx) :
    ((istep steps rA rB false s).runB, (istep steps rA rB false s).heap rB)
      = solo1 steps (s.runB, s.heap rB) := by
  unfold istep stepH solo1
  cases hs : step1 steps s.runB (s.heap rB) with
  | none => simp
  | some p => simp [hupd]

theorem istep_true_projB (steps : List (StepAct Ctx)) (rA rB : Nat)
    (hne : rA ≠ rB) (s : TwoRuns Ctx) :
    ((istep steps rA rB true s).runB, (istep steps rA rB true s).heap rB)
      = (s.runB, s.heap rB) := by
  unfold istep stepH
  cases hs : step1 steps s.runA (s.heap rA) with
  | none => simp
  | some p => simp [hupd, Ne.symm hne]

theorem istep_true_projA (steps : List (StepAct Ctx)) (rA rB : Nat)
    (s : TwoRuns Ctx) :
    ((istep steps rA rB true s).runA, (istep steps rA rB true s).heap rA)
      = solo1 steps (s.runA, s.heap rA) := by
  unfold istep stepH solo1
  cases hs : step1 steps s.runA (s.heap rA) with
  | none => simp
  | some p => simp [hupd]

theorem istep_false_projA (steps : List (StepAct Ctx)) (rA rB : Nat)
    (hne : rA ≠ rB) (s : TwoRuns Ctx) :
    ((istep steps rA rB false s).runA, (istep steps rA rB false s).heap rA)
      = (s.runA, s.heap rA) := by
  unfold istep stepH
  cases hs : step1 steps s.runB (s.heap rB) with
  | none => simp
  | some p => simp [hupd, hne]

/-- Under any schedule, the state of run B and its own heap cell evolve
exactly as if run B were executing alone: run A's actions never read or
write them (the references being distinct). -/
theorem irun_runB (steps : List (StepAct Ctx)) (rA rB : Nat) (hne : rA ≠ rB) :
    ∀ (sched : List Bool) (s : TwoRuns Ctx),
    ((irun steps rA rB sched s).runB, (irun steps rA rB sched s).heap rB)
      = solo steps (turnsB sched) (s.runB, s.heap rB) := by
  intro sched
  induction sched with
  | nil => intro s; rfl
  | cons b sched ih =>
      intro s
      show ((irun steps rA rB sched (istep steps rA rB b s)).runB,
            (irun steps rA rB sched (istep steps rA rB b s)).heap rB)
        = solo steps (turnsB (b :: sched)) (s.runB, s.heap rB)
      rw [ih (istep steps rA rB b s)]
      cases b with
      | true =>
          rw [istep_true_projB steps rA rB hne s]
          simp [turnsB]
      | false =>
          rw [istep_false_projB steps rA rB s]
          have ht : (turnsB (false :: sched)) = turnsB sched + 1 := by
            simp [turnsB]
          rw [ht, solo_add_one]

/-- Mirror image of `irun_runB` for run A. -/
theorem irun_runA (steps : List (StepAct Ctx)) (rA rB : Nat) (hne : rA ≠ rB) :
    ∀ (sched : List Bool) (s : TwoRuns Ctx),
    ((irun steps rA rB sched s).runA, (irun steps rA rB sched s).heap rA)
      = solo steps (turnsA sched) (s.runA, s.heap rA) := by
  intro sched
  induction sched with
  | nil => intro s; rfl
  | cons b sched ih =>
      intro s
      show ((irun steps rA rB sched (istep steps rA rB b s)).runA,
            (irun steps rA rB sched (istep steps rA rB b s)).heap rA)
        = solo steps (turnsA (b :: sched)) (s.runA, s.heap rA)
      rw [ih (istep steps rA rB b s)]
      cases b with
      | false =>
          rw [istep_false_projA steps rA rB hne s]
          simp [turnsA]
      | true =>
          rw [istep_true_projA steps rA rB s]
          have ht : (turnsA (true :: sched)) = turnsA sched + 1 := by
            simp [turnsA]
          rw [ht, solo_add_one]

theorem exec_eval (steps : List (StepAct Ctx)) (c : PipelineRun Ctx) (x : Ctx)
    {p : PipelineRun Ctx × Ctx} (h : step1 steps c x = some p) :
    exec steps c x = exec steps p.1 p.2 := exec_some steps c x p h

/-- A run whose first step performs mutations and advances and whose second
step throws `msg` before invoking its continuation: steps 0 and 1 are
dispatched, the first step's mutations stick, and the whole chain aborts
with the error — whatever steps follow are never dispatched. -/
theorem exec_throw_second (aFns : List (Ctx → Ctx)) (msg : String)
    (kB : StepAct Ctx) (rest : List (StepAct Ctx)) (x : Ctx) :
    exec (seqMut aFns (.next .done) :: .throwErr msg kB :: rest) initRun x
      = (⟨[], 2, [0, 1], 0, some msg⟩, applyFns aFns x) := by
  have h1 : step1 (seqMut aFns (.next .done) :: .throwErr msg kB :: rest)
      initRun x
      = some (⟨[seqMut aFns (.next .done), .done], 1, [0], 0, none⟩, x) := by
    simp [step1, initRun]
  rw [exec_eval _ _ _ h1, exec_seqMut]
  have h2 : step1 (seqMut aFns (.next .done) :: .throwErr msg kB :: rest)
      ⟨[.next .done, .done], 1, [0], 0, none⟩ (applyFns aFns x)
      = some (⟨[.throwErr msg kB, .done, .done], 2, [0, 1], 0, none⟩,
              applyFns aFns x) := by
    simp [step1]
  rw [exec_eval _ _ _ h2]
  have h3 : step1 (seqMut aFns (.next .done) :: .throwErr msg kB :: rest)
      ⟨[.throwErr msg kB, .done, .done], 2, [0, 1], 0, none⟩ (applyFns aFns x)
      = some (⟨[], 2, [0, 1], 0, some msg⟩, applyFns aFns x) := rfl
  rw [exec_eval _ _ _ h3, exec_halt]

/-- Concrete shape of `exec_halting`: an advancing step for each mutation
list in `press`, then one step that performs `gs` and halts, then anything.
Only the first `press.length + 1` steps run; their mutations apply in
order. -/
theorem exec_halting_shape (press : List (List (Ctx → Ctx)))
    (gs : List (Ctx → Ctx)) (rest : List (StepAct Ctx)) (x : Ctx) :
    exec ((press.map fun fns => seqMut fns (.next .done))
            ++ seqMut gs .done :: rest) initRun x
      = (⟨[], press.length + 1, List.range (press.length + 1), 0, none⟩,
         applyFns gs (press.foldl (fun a fns => applyFns fns a) x)) := by
  have hlen : ((press.map fun fns => seqMut fns (.next .done))
      ++ seqMut gs .done :: rest).length
      = press.length + (rest.length + 1) := by simp
  have hm : press.length < ((press.map fun fns => seqMut fns (.next .done))
      ++ seqMut gs .done :: rest).length := by omega
  have hadv : ∀ j (hj : j < ((press.map fun fns => seqMut fns (.next .done))
      ++ seqMut gs .done :: rest).length), j < press.length →
      Advancing (((press.map fun fns => seqMut fns (.next .done))
        ++ seqMut gs .done :: rest).get ⟨j, hj⟩) := by
    intro j hj hjm
    have hj2 : j < (press.map fun fns => seqMut fns (.next .done)).length := by
      simp
      omega
    rw [List.get_eq_getElem, List.getElem_append_left hj2,
        List.getElem_map]
    exact ⟨press[j], rfl⟩
  have hhalt : Halting (((press.map fun fns => seqMut fns (.next .done))
      ++ seqMut gs .done :: rest).get ⟨press.length, hm⟩) := by
    refine ⟨gs, ?_⟩
    rw [List.get_eq_getElem, List.getElem_append_right (by simp)]
    simp
  rw [exec_halting _ press.length hm hadv hhalt x]
  congr 1
  have ht : ((press.map fun fns => seqMut fns (.next .done))
      ++ seqMut gs .done :: rest).take (press.length + 1)
      = (press.map fun fns => seqMut fns (.next .done)) ++ [seqMut gs .done] := by
    have hp : press.length
        = (press.map fun fns => seqMut fns (.next .done)).length := by simp
    rw [hp, List.take_append 1]
    rfl
  rw [ht]
  unfold chainEffect
  rw [List.foldl_append, List.foldl_map]
  simp [bodyFns_seqMut, bodyFns, applyFns]

/-- A machine transition never decreases the cursor. -/
theorem step1_cursor_mono (steps : List (StepAct Ctx)) (c : PipelineRun Ctx)
    (x : Ctx) (p : PipelineRun Ctx × Ctx) (h : step1 steps c x = some p) :
    c.cursor ≤ p.1.cursor := by
  obtain ⟨st, cur, tr, tm, er⟩ := c
  cases st with
  | nil => simp [step1] at h
  | cons frame rest =>
    cases frame with
    | done => simp [step1] at h; subst h; simp
    | mutate f k => simp [step1] at h; subst h; simp
    | next k =>
        simp only [step1] at h
        by_cases hc : cur < steps.length
        · rw [dif_pos hc] at h
          injection h with h
          subst h
          simp
        · rw [dif_neg hc] at h
          injection h with h
          subst h
          simp
    | throwErr msg k => simp [step1] at h; subst h; simp
    | branch q t e => simp [step1] at h; subst h; simp

/-- Trace invariant of a full run: the indices of invoked steps are
strictly increasing (so no step is ever invoked twice), each is below the
cursor when recorded, and each is a valid step index. -/
theorem exec_trace_facts (steps : List (StepAct Ctx)) (x : Ctx) :
    (exec steps initRun x).1.trace.Pairwise (· < ·)
    ∧ (∀ j ∈ (exec steps initRun x).1.trace,
        j < (exec steps initRun x).1.cursor)
    ∧ (∀ j ∈ (exec steps initRun x).1.trace, j < steps.length) := by
  have h := exec_inv steps
    (fun c _ => c.trace.Pairwise (· < ·)
      ∧ (∀ j ∈ c.trace, j < c.cursor)
      ∧ (∀ j ∈ c.trace, j < steps.length))
    ?_ initRun x ?_
  · exact h
  · intro c x p hstep hP
    obtain ⟨st, cur, tr, tm, er⟩ := c
    obtain ⟨h1, h2, h3⟩ := hP
    cases st with
    | nil => simp [step1] at hstep
    | cons frame rest =>
      cases frame with
      | done => simp [step1] at hstep; subst hstep; exact ⟨h1, h2, h3⟩
      | mutate f k => simp [step1] at hstep; subst hstep; exact ⟨h1, h2, h3⟩
      | next k =>
          simp only [step1] at hstep
          by_cases hc : cur < steps.length
          · rw [dif_pos hc] at hstep
            injection hstep with hstep
            subst hstep
            have h1' : tr.Pairwise (· < ·) := h1
            have h2' : ∀ j ∈ tr, j < cur := h2
            have h3' : ∀ j ∈ tr, j < steps.length := h3
            refine ⟨?_, ?_, ?_⟩
            · show (tr ++ [cur]).Pairwise (· < ·)
              rw [List.pairwise_append]
              refine ⟨h1', List.pairwise_singleton _ _, ?_⟩
              intro a ha b hb
              simp at hb
              subst hb
              exact h2' a ha
            · show ∀ j ∈ tr ++ [cur], j < cur + 1
              intro j hj
              simp at hj
              rcases hj with hj | hj
              · have := h2' j hj
                omega
              · omega
            · show ∀ j ∈ tr ++ [cur], j < steps.length
              intro j hj
              simp at hj
              rcases hj with hj | hj
              · exact h3' j hj
              · omega
          · rw [dif_neg hc] at hstep
            injection hstep with hstep
            subst hstep
            exact ⟨h1, h2, h3⟩
      | throwErr msg k => simp [step1] at hstep; subst hstep; exact ⟨h1, h2, h3⟩
      | branch q t e => simp [step1] at hstep; subst hstep; exact ⟨h1, h2, h3⟩
  · exact ⟨List.Pairwise.nil, by simp [initRun], by simp [initRun]⟩

/-- C1: for every step list of length N ≥ 0 in which every step
unconditionally performs its mutations and invokes its continuation exactly
once, `run(ctx)` resolves (no error) after exactly N step invocations, the
steps are invoked in registration order (trace = `[0, …, N-1]`, so step k+1
is only dispatched after step k invoked the continuation), the terminal
branch then runs once, and the single threaded context accumulates every
step's mutations in registration order — for both
`AirportSecurity.processPassenger` and `WebServer.handleRequest`. -/
theorem c1_advancing_steps_run_in_registration_order
    (steps : List (StepAct Ctx)) (x : Ctx)
    (hadv : ∀ b ∈ steps, Advancing b) :
    (((AirportSecurity.mk steps).processPassenger x).2.err = none
      ∧ ((AirportSecurity.mk steps).processPassenger x).2.trace
          = List.range steps.length
      ∧ ((AirportSecurity.mk steps).processPassenger x).2.terms = 1
      ∧ ((AirportSecurity.mk steps).processPassenger x).2.ctx
          = chainEffect steps x)
    ∧ (((WebServer.mk steps).handleRequest x).2.err = none
      ∧ ((WebServer.mk steps).handleRequest x).2.trace
          = List.range steps.length
      ∧ ((WebServer.mk steps).handleRequest x).2.terms = 1
      ∧ ((WebServer.mk steps).handleRequest x).2.ctx = chainEffect steps x) := by
  simp [AirportSecurity.processPassenger, WebServer.handleRequest,
        exec_advancing steps hadv x]

/-- Witness for C1: a concrete one-step pipeline over Nat. -/
theorem c1_witness :
    (∀ b ∈ [seqMut [fun n : Nat => n + 1] (.next .done)], Advancing b)
    ∧ ((AirportSecurity.mk
          [seqMut [fun n : Nat => n + 1] (.next .done)]).processPassenger
          5).2.err = none := by
  have hadv : ∀ b ∈ [seqMut [fun n : Nat => n + 1] (.next .done)],
      Advancing b := by
    intro b hb
    simp only [List.mem_singleton] at hb
    exact ⟨[fun n => n + 1], hb⟩
  exact ⟨hadv,
    (c1_advancing_steps_run_in_registration_order _ 5 hadv).1.1⟩

/-- C2 counterexample: with zero checkpoints, `processPassenger` resolves
(no error) and the context is unchanged — but the resolved value is `none`
(JavaScript `undefined`: the method body has no `return`), not the context
object, so "the outcome is the context" fails for this incarnation. -/
theorem c2_counterexample :
    ((AirportSecurity.mk ([] : List (StepAct Nat))).processPassenger 0).2.err
        = none
    ∧ ((AirportSecurity.mk ([] : List (StepAct Nat))).processPassenger 0).2.ctx
        = 0
    ∧ ¬ ((AirportSecurity.mk
          ([] : List (StepAct Nat))).processPassenger 0).2.retval = some 0 := by
  refine ⟨?_, ?_, ?_⟩ <;>
    simp [AirportSecurity.processPassenger, exec, step1, initRun]

/-- C2 (amended): when every registered step unconditionally advances (so
the cursor reaches the end of the step list), all three executors resolve
without error; `WebServer.handleRequest` and `DataPipeline.process` resolve
with the context in its final mutated state as the outcome, while
`AirportSecurity.processPassenger` resolves with no value (undefined) —
its caller observes the final mutated state only through the context
reference it already holds. -/
theorem c2_amended_end_of_list_resolution (steps : List (StepAct Ctx))
    (x : Ctx) (hadv : ∀ b ∈ steps, Advancing b) :
    (((AirportSecurity.mk steps).processPassenger x).2.err = none
      ∧ ((AirportSecurity.mk steps).processPassenger x).2.retval = none
      ∧ ((AirportSecurity.mk steps).processPassenger x).2.ctx
          = chainEffect steps x)
    ∧ (((WebServer.mk steps).handleRequest x).2.err = none
      ∧ ((WebServer.mk steps).handleRequest x).2.retval
          = some (((WebServer.mk steps).handleRequest x).2.ctx)
      ∧ ((WebServer.mk steps).handleRequest x).2.ctx = chainEffect steps x)
    ∧ (((DataPipeline.mk steps).process x).2.err = none
      ∧ ((DataPipeline.mk steps).process x).2.retval
          = some (((DataPipeline.mk steps).process x).2.ctx)
      ∧ ((DataPipeline.mk steps).process x).2.ctx = chainEffect steps x) := by
  simp [AirportSecurity.processPassenger, WebServer.handleRequest,
        DataPipeline.process, exec_advancing steps hadv x]

/-- Witness for C2 (amended): the zero-step pipeline over Nat. -/
theorem c2_witness :
    (∀ b ∈ ([] : List (StepAct Nat)), Advancing b)
    ∧ ((WebServer.mk ([] : List (StepAct Nat))).handleRequest 7).2.retval
        = some (((WebServer.mk ([] : List (StepAct Nat))).handleRequest
            7).2.ctx) := by
  have hadv : ∀ b ∈ ([] : List (StepAct Nat)), Advancing b := by simp
  exact ⟨hadv, (c2_amended_end_of_list_resolution [] 7 hadv).2.1.2.1⟩

/-- C3 counterexample: the denied passenger of the source demo (no ticket,
so `ticketCheck` returns without invoking its continuation): only step 0 is
invoked, yet `processPassenger` resolves with no error — the run is not
permanently suspended; a resolution is delivered to the caller (the demo's
own `await airport.processPassenger(...)` visibly continues past it). -/
theorem c3_counterexample :
    ((AirportSecurity.mk [ticketCheck, idVerification]).processPassenger
        ⟨false, false, false⟩).2.err = none
    ∧ ((AirportSecurity.mk [ticketCheck, idVerification]).processPassenger
        ⟨false, false, false⟩).2.trace = [0] := by
  refine ⟨?_, ?_⟩ <;>
    simp [AirportSecurity.processPassenger, exec, step1, initRun,
          ticketCheck, idVerification]

/-- C3 (amended): a step that completes without invoking its continuation
and without throwing short-circuits the run — the steps after it are never
invoked — but the run does NOT remain suspended: the await chain unwinds
and `processPassenger` resolves normally (no error). -/
theorem c3_amended_halting_short_circuits_but_resolves
    (press : List (List (Ctx → Ctx))) (gs : List (Ctx → Ctx))
    (rest : List (StepAct Ctx)) (x : Ctx) :
    ((AirportSecurity.mk ((press.map fun fns => seqMut fns (.next .done))
        ++ seqMut gs .done :: rest)).processPassenger x).2.err = none
    ∧ ((AirportSecurity.mk ((press.map fun fns => seqMut fns (.next .done))
        ++ seqMut gs .done :: rest)).processPassenger x).2.trace
        = List.range (press.length + 1) := by
  simp [AirportSecurity.processPassenger, exec_halting_shape press gs rest x]

/-- C4: in a step list [A, B, C] where A performs its mutations and
advances and B performs its mutations and returns without invoking its
continuation, step C — an arbitrary body — is never invoked (the trace is
exactly [0, 1]) and the final context carries only A's and B's mutations:
the result is the same whatever C is. -/
theorem c4_third_step_never_invoked (aFns bFns : List (Ctx → Ctx))
    (cBody : StepAct Ctx) (x : Ctx) :
    ((AirportSecurity.mk [seqMut aFns (.next .done), seqMut bFns .done,
        cBody]).processPassenger x).2.trace = [0, 1]
    ∧ ((AirportSecurity.mk [seqMut aFns (.next .done), seqMut bFns .done,
        cBody]).processPassenger x).2.ctx = applyFns bFns (applyFns aFns x)
    ∧ ((AirportSecurity.mk [seqMut aFns (.next .done), seqMut bFns .done,
        cBody]).processPassenger x).2.err = none := by
  have h := exec_halting_shape [aFns] bFns [cBody] x
  simp [List.range_succ] at h
  simp [AirportSecurity.processPassenger, h, applyFns]

/-- C5: with steps = [A (mutates then advances), B (throws "boom")] and
anything after, the run rejects with exactly the error "boom" (the executor
neither catches nor rewrites it), only steps 0 and 1 are ever invoked, the
rejected promise carries no value, and A's mutations are still visible on
the context. -/
theorem c5_error_propagation (aFns : List (Ctx → Ctx)) (kB : StepAct Ctx)
    (rest : List (StepAct Ctx)) (x : Ctx) :
    ((WebServer.mk (seqMut aFns (.next .done)
        :: .throwErr "boom" kB :: rest)).handleRequest x).2.err = some "boom"
    ∧ ((WebServer.mk (seqMut aFns (.next .done)
        :: .throwErr "boom" kB :: rest)).handleRequest x).2.trace = [0, 1]
    ∧ ((WebServer.mk (seqMut aFns (.next .done)
        :: .throwErr "boom" kB :: rest)).handleRequest x).2.retval = none
    ∧ ((WebServer.mk (seqMut aFns (.next .done)
        :: .throwErr "boom" kB :: rest)).handleRequest x).2.ctx
        = applyFns aFns x := by
  simp [WebServer.handleRequest, exec_throw_second aFns "boom" kB rest x]

/-- C6: a run with zero registered steps resolves immediately with no step
invoked and the context unchanged, in all three executors. -/
theorem c6_zero_steps_resolve_immediately (x : Ctx) :
    (((AirportSecurity.mk ([] : List (StepAct Ctx))).processPassenger
        x).2.err = none
      ∧ ((AirportSecurity.mk ([] : List (StepAct Ctx))).processPassenger
          x).2.trace = []
      ∧ ((AirportSecurity.mk ([] : List (StepAct Ctx))).processPassenger
          x).2.ctx = x)
    ∧ (((WebServer.mk ([] : List (StepAct Ctx))).handleRequest x).2.err = none
      ∧ ((WebServer.mk ([] : List (StepAct Ctx))).handleRequest x).2.trace = []
      ∧ ((WebServer.mk ([] : List (StepAct Ctx))).handleRequest x).2.ctx = x
      ∧ ((WebServer.mk ([] : List (StepAct Ctx))).handleRequest x).2.retval
          = some x)
    ∧ (((DataPipeline.mk ([] : List (StepAct Ctx))).process x).2.err = none
      ∧ ((DataPipeline.mk ([] : List (StepAct Ctx))).process x).2.trace = []
      ∧ ((DataPipeline.mk ([] : List (StepAct Ctx))).process x).2.ctx = x
      ∧ ((DataPipeline.mk ([] : List (StepAct Ctx))).process x).2.retval
          = some x) := by
  have h := exec_advancing ([] : List (StepAct Ctx)) (by simp) x
  simp [chainEffect] at h
  simp [AirportSecurity.processPassenger, WebServer.handleRequest,
        DataPipeline.process, h]

/-- C7: two runs of one executor over distinct context references are
independent.  Under any cooperative interleaving, each run's machine state
and its own context cell evolve exactly as in a solo execution of that run
alone — mutations through the other reference never become visible — and
once a schedule grants run B enough turns, its interleaved outcome is
exactly the outcome `exec` (hence `run`) computes for it in isolation,
regardless of the other run or the schedule's shape. -/
theorem c7_concurrent_runs_independent (steps : List (StepAct Ctx))
    (rA rB : Nat) (hne : rA ≠ rB) (sched : List Bool) (h : Heap Ctx) :
    ((irun steps rA rB sched ⟨initRun, initRun, h⟩).runB,
      (irun steps rA rB sched ⟨initRun, initRun, h⟩).heap rB)
        = solo steps (turnsB sched) (initRun, h rB)
    ∧ ((irun steps rA rB sched ⟨initRun, initRun, h⟩).runA,
        (irun steps rA rB sched ⟨initRun, initRun, h⟩).heap rA)
        = solo steps (turnsA sched) (initRun, h rA)
    ∧ (measureC steps initRun ≤ turnsB sched →
        ((irun steps rA rB sched ⟨initRun, initRun, h⟩).runB,
          (irun steps rA rB sched ⟨initRun, initRun, h⟩).heap rB)
          = exec steps initRun (h rB)) := by
  refine ⟨irun_runB steps rA rB hne sched _,
    irun_runA steps rA rB hne sched _, ?_⟩
  intro hm
  rw [irun_runB steps rA rB hne sched _]
  exact solo_reaches steps (turnsB sched) initRun (h rB) hm

/-- Witness for C7: concrete references 0 ≠ 1, a one-step pipeline over
Nat, and a two-turn schedule. -/
theorem c7_witness :
    (0 : Nat) ≠ 1
    ∧ ((irun [StepAct.mutate (fun n : Nat => n + 100) (.next .done)] 0 1
          [true, false] ⟨initRun, initRun, fun n => n⟩).runB,
        (irun [StepAct.mutate (fun n : Nat => n + 100) (.next .done)] 0 1
          [true, false] ⟨initRun, initRun, fun n => n⟩).heap 1)
        = solo [StepAct.mutate (fun n : Nat => n + 100) (.next .done)]
            (turnsB [true, false]) (initRun, 1) := by
  have hne : (0 : Nat) ≠ 1 := by decide
  exact ⟨hne,
    (c7_concurrent_runs_independent
      [StepAct.mutate (fun n : Nat => n + 100) (.next .done)] 0 1 hne
      [true, false] (fun n => n)).1⟩

/-- C8: executing a run never mutates the executor's step list: the object
state after a run — indeed after any number of runs — carries exactly the
step list it started with, and a run launched from the post-state of an
earlier run produces the same result as an independent run. -/
theorem c8_step_list_never_mutated (a : AirportSecurity Ctx)
    (w : WebServer Ctx) (p p' q : Ctx) (ctxs : List Ctx) :
    (a.processPassenger p).1 = a
    ∧ ctxs.foldl (fun s c => (AirportSecurity.processPassenger s c).1) a = a
    ∧ ((a.processPassenger p).1.processPassenger p').2
        = (a.processPassenger p').2
    ∧ (w.handleRequest q).1 = w
    ∧ (w.handleRequest q).1.middleware = w.middleware := by
  refine ⟨rfl, ?_, rfl, rfl, rfl⟩
  induction ctxs with
  | nil => rfl
  | cons c cs ih => exact ih

/-- C9: within a single run the cursor never decreases, and the trace of
invoked step indices is strictly increasing — so each registered step is
invoked at most once even if some step calls its continuation repeatedly,
and every recorded index is a real step index (continuation calls past the
end of the list reach only the terminal branch, never a step). -/
theorem c9_cursor_monotone_steps_at_most_once (steps : List (StepAct Ctx))
    (x : Ctx) :
    (∀ (c : PipelineRun Ctx) (y : Ctx) (p : PipelineRun Ctx × Ctx),
        step1 steps c y = some p → c.cursor ≤ p.1.cursor)
    ∧ ((AirportSecurity.mk steps).processPassenger x).2.trace.Pairwise (· < ·)
    ∧ ((AirportSecurity.mk steps).processPassenger x).2.trace.Nodup
    ∧ (∀ j ∈ ((AirportSecurity.mk steps).processPassenger x).2.trace,
        j < steps.length) := by
  have h := exec_trace_facts steps x
  refine ⟨fun c y p hp => step1_cursor_mono steps c y p hp, ?_, ?_, ?_⟩
  · simpa [AirportSecurity.processPassenger] using h.1
  · have h1 : ((AirportSecurity.mk steps).processPassenger
        x).2.trace.Pairwise (· < ·) := by
      simpa [AirportSecurity.processPassenger] using h.1
    exact h1.imp (fun hab => Nat.ne_of_lt hab)
  · simpa [AirportSecurity.processPassenger] using h.2.2

/-- Witness for C9: the source demo pipeline on a ticketed passenger. -/
theorem c9_witness :
    ((AirportSecurity.mk [ticketCheck, idVerification]).processPassenger
        ⟨true, false, false⟩).2.trace.Nodup :=
  (c9_cursor_monotone_steps_at_most_once [ticketCheck, idVerification]
    ⟨true, false, false⟩).2.2.1

/-- C10: if some step completes without invoking its continuation and
without throwing, the run resolves normally (no error) rather than
hanging — the executor awaits each step and the continuation chain unwinds
on return — and the caller's outcome reflects exactly the mutations of the
steps invoked before the halt: for `processPassenger` the context carries
them (the resolved value being undefined), and `handleRequest` resolves
with that context as its value. -/
theorem c10_halting_run_resolves_normally (press : List (List (Ctx → Ctx)))
    (gs : List (Ctx → Ctx)) (rest : List (StepAct Ctx)) (x : Ctx) :
    ((AirportSecurity.mk ((press.map fun fns => seqMut fns (.next .done))
        ++ seqMut gs .done :: rest)).processPassenger x).2.err = none
    ∧ ((AirportSecurity.mk ((press.map fun fns => seqMut fns (.next .done))
        ++ seqMut gs .done :: rest)).processPassenger x).2.ctx
        = applyFns gs (press.foldl (fun a fns => applyFns fns a) x)
    ∧ ((WebServer.mk ((press.map fun fns => seqMut fns (.next .done))
        ++ seqMut gs .done :: rest)).handleRequest x).2.err = none
    ∧ ((WebServer.mk ((press.map fun fns => seqMut fns (.next .done))
        ++ seqMut gs .done :: rest)).handleRequest x).2.retval
        = some (applyFns gs (press.foldl (fun a fns => applyFns fns a) x)) := by
  simp [AirportSecurity.processPassenger, WebServer.handleRequest,
        exec_halting_shape press gs rest x]
